import Mathlib

/-!
Shallow embedding of the `garden` simulation core (`src/world/mod.rs` and
`src/world/garden_pathfinding.rs`) together with proofs about it.

Machine integers (`i32`, `i8`, `usize`) are embedded as `Int`/`Nat`; the one
place where 8-bit overflow is semantically relevant (`Eater::increment_desire`
adds two `i8` values) applies an explicit wrap-around `wrap8`, matching Rust's
release-mode two's-complement wrapping.  Rust panics (`panic!`, `expect`,
out-of-bounds indexing) are embedded as `Option.none`.

The two external crates the core calls are modelled by their documented
contracts over an abstract stream of random draws:
* `rand`'s `gen_range(0..n)` consumes one draw and yields a value in `[0, n)`;
  `SliceRandom::shuffle` is the Fisher-Yates shuffle, consuming one draw per
  swap.  An RNG state is the stream of draws (`Rng := List Nat`), which ranges
  over every draw sequence a seeded `Pcg32` can produce.
* the `pathfinding` crate's `astar` returns a minimum-cost path for the given
  successor function (its heuristic argument only steers the search; with the
  admissible heuristic used here it does not affect which costs are optimal).
  It is embedded as a layered breadth-first reachability computation that is
  proved below to return exactly the shortest-path cost and a second node of a
  shortest path, which is the crate's contract.
-/

/-- Grid coordinate, `Position { x: i32, y: i32 }` from the source. -/
structure Position where
  x : Int
  y : Int
deriving DecidableEq

/-- The four cardinal directions. -/
inductive Direction where
  | up
  | right
  | down
  | left
deriving DecidableEq

/-- Static `CARDINAL_DIRECTIONS` array from the source. -/
def CARDINAL_DIRECTIONS : List Direction := [.up, .right, .down, .left]

/-- Entity colors from the source. -/
def RED : String := "#ff0000"

/-- Brown, the Eater color. -/
def BROWN : String := "#996600"

/-- Black (unused by entities). -/
def BLACK : String := "#000000"

/-- Green, the default (invisible) color. -/
def GREEN : String := "#009933"

/-- Closed variant over the four `Updateable` implementations in the source.
`eater` carries its `desires[Hunger]` value, `age`, `last_reproduced` and its
`desire_threshold[Hunger]` (always `20` for eaters built by `Eater::new`). -/
inductive Entity where
  | food (position : Position)
  | foodSpawner (last_spawned spawn_every_x_ticks : Int)
  | eaterSpawner (ticks_without_eater : Int)
  | eater (position : Position) (hunger age last_reproduced threshold : Int)
deriving DecidableEq

/-- The `EaterGoal` enum from the source. -/
inductive EaterGoal where
  | getFood (idx : Nat)
  | wander
  | die
  | reproduce
deriving DecidableEq

/-- The `World` struct from the source. -/
structure World where
  width : Int
  height : Int
  entities : List Entity
  removed_entity_indices : List Nat
  active : Bool
  manual_update_requested : Bool
deriving DecidableEq

/-- An RNG state: the stream of raw draws the generator will produce. -/
abbrev Rng := List Nat

/-- One raw draw from the generator. -/
def rngNext (r : Rng) : Nat × Rng :=
  (r.headD 0, r.tail)

/-- Contract model of `rng.gen_range(0..n)`: one draw reduced into `[0, n)`. -/
def genRange (r : Rng) (n : Int) : Int × Rng :=
  (((rngNext r).1 : Int) % n, (rngNext r).2)

/-- Swap two positions of a list (helper for the Fisher-Yates shuffle). -/
def listSwap (l : List α) (i j : Nat) : List α :=
  match l.get? i, l.get? j with
  | some a, some b => (l.set i b).set j a
  | _, _ => l

/-- Fisher-Yates passes: swap index `i` with a drawn index in `[0, i]`,
descending. -/
def shuffleAux (l : List α) (r : Rng) : Nat → List α × Rng
  | 0 => (l, r)
  | i + 1 =>
    let (v, r1) := rngNext r
    shuffleAux (listSwap l (i + 1) (v % (i + 2))) r1 i

/-- Contract model of `SliceRandom::shuffle` (Fisher-Yates). -/
def shuffle (l : List α) (r : Rng) : List α × Rng :=
  shuffleAux l r (l.length - 1)

/-- Wrap an integer into the `i8` range, Rust release-mode overflow. -/
def wrap8 (n : Int) : Int :=
  (n + 128) % 256 - 128

/-- Accessor dispatch of `get_position`: `Food` and `Eater` return their
position field; both spawners report the default `Position { x: 0, y: 0 }`
(`FoodSpawner` overrides `get_position` with that constant, `EaterSpawner`
inherits the trait default). -/
def Entity.get_position : Entity → Position
  | .food p => p
  | .foodSpawner _ _ => ⟨0, 0⟩
  | .eaterSpawner _ => ⟨0, 0⟩
  | .eater p _ _ _ _ => p

/-- Accessor dispatch of `get_name` (`FoodSpawner` keeps the trait default). -/
def Entity.get_name : Entity → String
  | .food _ => "food"
  | .foodSpawner _ _ => "unnamed"
  | .eaterSpawner _ => "eater spawner"
  | .eater _ _ _ _ _ => "eater"

/-- Accessor dispatch of `get_color` (spawners keep the trait default). -/
def Entity.get_color : Entity → String
  | .food _ => RED
  | .foodSpawner _ _ => GREEN
  | .eaterSpawner _ => GREEN
  | .eater _ _ _ _ _ => BROWN

/-- Scan of `World::get_entity_at`: walk the entities with their index,
skipping indices already marked for removal, returning the first whose
position matches. -/
def findAtAux (removed : List Nat) (p : Position) : List Entity → Nat → Option Entity
  | [], _ => none
  | e :: rest, i =>
    if i ∈ removed then findAtAux removed p rest (i + 1)
    else if e.get_position = p then some e
    else findAtAux removed p rest (i + 1)

/-- `World::get_entity_at`. -/
def World.get_entity_at (w : World) (p : Position) : Option Entity :=
  findAtAux w.removed_entity_indices p w.entities 0

/-- Scan of `World::get_food_entities` / `get_eater_entities`: indices of
entities with the given name, skipping indices marked for removal. -/
def namedIdxAux (removed : List Nat) (name : String) : List Entity → Nat → List Nat
  | [], _ => []
  | e :: rest, i =>
    if i ∈ removed then namedIdxAux removed name rest (i + 1)
    else if e.get_name = name then i :: namedIdxAux removed name rest (i + 1)
    else namedIdxAux removed name rest (i + 1)

/-- `World::get_food_entities`. -/
def World.get_food_entities (w : World) : List Nat :=
  namedIdxAux w.removed_entity_indices "food" w.entities 0

/-- `World::get_eater_entities`. -/
def World.get_eater_entities (w : World) : List Nat :=
  namedIdxAux w.removed_entity_indices "eater" w.entities 0

/-- `World::get_new_position`: move one cell in a direction, staying in place
at the grid edge (including the two trailing clamp checks of the source). -/
def World.get_new_position (w : World) (cur : Position) (d : Direction) : Position :=
  let np : Position :=
    match d with
    | .up => if cur.y = 0 then ⟨cur.x, cur.y⟩ else ⟨cur.x, cur.y - 1⟩
    | .right => if cur.x = w.width - 1 then ⟨cur.x, cur.y⟩ else ⟨cur.x + 1, cur.y⟩
    | .down => if cur.y = w.height - 1 then ⟨cur.x, cur.y⟩ else ⟨cur.x, cur.y + 1⟩
    | .left => if cur.x = 0 then ⟨cur.x, cur.y⟩ else ⟨cur.x - 1, cur.y⟩
  let np2 : Position := if np.x ≥ w.width then ⟨cur.x, np.y⟩ else np
  if np2.y ≥ w.height then ⟨np2.x, cur.y⟩ else np2

/-- `World::render`: project every entity to `(position, color)`. -/
def World.render (w : World) : List (Position × String) :=
  w.entities.map (fun e => (e.get_position, e.get_color))

/-- `NEIGHBOR_DIRECTIONS` from `garden_pathfinding.rs` (N, E, S, W). -/
def neighborDirs : List (Int × Int) := [(0, -1), (1, 0), (0, 1), (-1, 0)]

/-- Successor function passed to `astar`: the four cardinal neighbors that lie
inside `[0,width) × [0,height)` and are not in the ignored list. -/
def neighbors (W H : Int) (ignored : List Position) (p : Position) : List Position :=
  neighborDirs.filterMap (fun d =>
    let q : Position := ⟨p.x + d.1, p.y + d.2⟩
    if (0 ≤ q.x ∧ q.x < W ∧ 0 ≤ q.y ∧ q.y < H) ∧ ¬ q ∈ ignored then some q else none)

/-- Manhattan-distance-based heuristic passed to `astar` in the source
(`(|dx| + |dy|) / 3`). -/
def heuristic (goal p : Position) : Int :=
  (|p.x - goal.x| + |p.y - goal.y|) / 3

/-- One breadth-first layer extension: keep the current set and add every
fresh neighbor of it. -/
def extendLayer (nb : Position → List Position) (cur : List Position) : List Position :=
  cur ++ (((cur.flatMap nb).filter (fun q => ¬ q ∈ cur)).dedup)

/-- Positions reachable from `start` within `n` steps. -/
def reachList (nb : Position → List Position) (start : Position) : Nat → List Position
  | 0 => [start]
  | n + 1 => extendLayer nb (reachList nb start n)

/-- Search for the least layer containing the goal, with bounded fuel. -/
def distAux (nb : Position → List Position) (start goal : Position) :
    Nat → Nat → Option Nat
  | 0, n => if goal ∈ reachList nb start n then some n else none
  | fuel + 1, n =>
    if goal ∈ reachList nb start n then some n else distAux nb start goal fuel (n + 1)

/-- Enough layers to saturate reachability on a `W × H` grid: every layer is a
duplicate-free list drawn from the grid cells plus the start. -/
def maxIter (W H : Int) : Nat :=
  W.toNat * H.toNat + 1

/-- Contract model of `a_star_pathfind`: cost of a shortest path from
`cur_pos` to `goal` (unit edge costs, neighbor expansion exactly as in the
source) together with the second node of such a path.  A path of length 1
(start = goal) yields the sentinel `(1, cur_pos)`; an unreachable goal yields
`none`, where the source panics with "No path to goal found". -/
def a_star_pathfind (cur goal : Position) (ignored : List Position) (W H : Int) :
    Option (Nat × Position) :=
  let nb := neighbors W H ignored
  match distAux nb cur goal (maxIter W H) 0 with
  | none => none
  | some 0 => some (1, cur)
  | some (d + 1) =>
    match (nb cur).find? (fun q => decide (goal ∈ reachList nb q d)) with
    | some q => some (d + 1, q)
    | none => none

/-- Chain check: consecutive elements of the list are graph-adjacent. -/
def isChain (nb : Position → List Position) : List Position → Bool
  | [] => true
  | [_] => true
  | p :: q :: rest => decide (q ∈ nb p) && isChain nb (q :: rest)

/-- Path check: a nonempty list starting at `start`, ending at `goal`, whose
consecutive elements are adjacent.  Its cost is its length minus one. -/
def isPathB (nb : Position → List Position) (start goal : Position)
    (l : List Position) : Bool :=
  decide (l.head? = some start) && decide (l.getLast? = some goal) && isChain nb l

/-- `Eater::increment_desire` for `Desire::Hunger`: add (8-bit, wrapping in
release mode), then clamp at 0 from below.  Returns the stored value. -/
def increment_desire (v inc : Int) : Int :=
  let nd := wrap8 (v + inc)
  if nd < 0 then 0 else nd

/-- `Eater::new`: zeroed hunger, age and reproduction timer, hunger
threshold 20. -/
def Eater.new (p : Position) : Entity :=
  .eater p 0 0 0 20

/-- Manhattan distance from the eater at `selfPos` to the entity at index
`idx` of the world, as computed inside `Eater::select_goal`.  Indices fed to
this come from `get_food_entities`, so they are always in range; the default
is never consulted. -/
def distTo (w : World) (selfPos : Position) (idx : Nat) : Int :=
  let ep := (w.entities.getD idx (.food ⟨0, 0⟩)).get_position
  |ep.x - selfPos.x| + |ep.y - selfPos.y|

/-- `Eater::select_goal`, a function of the eater's own (pre-increment) state
and the world snapshot it is handed. -/
def Eater.select_goal (selfPos : Position) (hunger age last_reproduced threshold : Int)
    (w : World) : EaterGoal :=
  let entity_indices := w.get_food_entities
  if hunger > 99 ∨ age > 1000 then .die
  else if hunger < 20 ∧ age > 40 ∧ last_reproduced > 40 then .reproduce
  else if hunger < threshold ∨ entity_indices.length = 0 then .wander
  else
    let best := entity_indices.foldl (fun (acc : Nat × Int) idx =>
      let d := distTo w selfPos idx
      if d < acc.2 then (idx, d) else acc) (0, 99999999)
    .getFood best.1

/-- Movement loop shared by the `Wander` and `Reproduce` arms: each iteration
overwrites `next_position` with the candidate for the next shuffled direction;
the occupancy test only guards a `continue`, which cannot undo the assignment
already made, so the final value is the candidate of the last direction tried
whether or not it is occupied. -/
def wanderLast (w : World) (selfPos : Position) (moves : List Direction) : Position :=
  moves.foldl (fun next d =>
    let _ := next
    let np := w.get_new_position selfPos d
    if (w.get_entity_at np).isSome then np else np) selfPos

/-- The `GetFood` retry loop: up to 3 pathfinding attempts; consume the food
when the path cost is exactly 1, otherwise move to the suggested step if it is
free, otherwise add it to the ignored list and retry.  Returns the final
`next_position` and whether the food was consumed; `none` models the panic
from an unreachable pathfinding call. -/
def getFoodLoop (w : World) (selfPos goalPos : Position) :
    Nat → List Position → Option (Position × Bool)
  | 0, _ => some (selfPos, false)
  | fuel + 1, ignored =>
    match a_star_pathfind selfPos goalPos ignored w.width w.height with
    | none => none
    | some (cost, tryPos) =>
      if cost = 1 then some (selfPos, true)
      else if (w.get_entity_at tryPos).isNone then some (tryPos, false)
      else getFoodLoop w selfPos goalPos fuel (ignored ++ [tryPos])

/-- Indexed scan behind `iter().position(...)`: first index from `i` on whose
element satisfies the predicate. -/
def findIdxAux (pred : Entity → Bool) : List Entity → Nat → Option Nat
  | [], _ => none
  | e :: rest, i => if pred e then some i else findIdxAux pred rest (i + 1)

/-- The position-based self lookup of the `Die` arm
(`world.entities.iter().position(...)`): first index whose entity reports the
eater's position, with no skipping of removal-marked indices. -/
def World.find_self_idx (w : World) (p : Position) : Option Nat :=
  findIdxAux (fun e => decide (e.get_position = p)) w.entities 0

/-- `Eater::update`.  Result: replacement entity, optional spawned entity,
optional removal index, RNG state after the tick; `none` models a panic
(`expect` in the `Die` arm, out-of-bounds indexing, or pathfinding failure in
the `GetFood` arm). -/
def Eater.update (selfPos : Position) (hunger age last_reproduced threshold : Int)
    (w : World) (r : Rng) : Option (Entity × Option Entity × Option Nat × Rng) :=
  let h1 := increment_desire hunger 1
  let a1 := age + 1
  let lr1 := last_reproduced + 1
  match Eater.select_goal selfPos hunger age last_reproduced threshold w with
  | .wander =>
    let (moves, r2) := shuffle CARDINAL_DIRECTIONS r
    let nextPos := wanderLast w selfPos moves
    some (.eater nextPos h1 a1 lr1 threshold, none, none, r2)
  | .getFood food_idx =>
    match w.entities.get? food_idx with
    | none => none
    | some fe =>
      match getFoodLoop w selfPos fe.get_position (CARDINAL_DIRECTIONS.length - 1) [] with
      | none => none
      | some (nextPos, consumed) =>
        if consumed then
          some (.eater selfPos (increment_desire h1 (-20)) a1 lr1 threshold,
            none, some food_idx, r)
        else
          some (.eater nextPos h1 a1 lr1 threshold, none, none, r)
  | .die =>
    match w.find_self_idx selfPos with
    | none => none
    | some self_idx => some (.eater selfPos h1 a1 lr1 threshold, none, some self_idx, r)
  | .reproduce =>
    let (moves, r2) := shuffle CARDINAL_DIRECTIONS r
    let nextPos := wanderLast w selfPos moves
    if nextPos ≠ selfPos then
      some (.eater selfPos h1 a1 0 threshold, some (Eater.new nextPos), none, r2)
    else
      some (.eater selfPos h1 a1 lr1 threshold, none, none, r2)

/-- `FoodSpawner::update`. -/
def FoodSpawner.update (last_spawned spawn_every_x_ticks : Int) (w : World) (r : Rng) :
    Entity × Option Entity × Rng :=
  if last_spawned + 1 ≥ spawn_every_x_ticks then
    let (x, r1) := genRange r w.width
    let (y, r2) := genRange r1 w.height
    let spawn_position : Position := ⟨x, y⟩
    let new_food : Option Entity :=
      if (w.get_entity_at spawn_position).isNone then some (.food spawn_position) else none
    (.foodSpawner 0 spawn_every_x_ticks, new_food, r2)
  else
    (.foodSpawner (last_spawned + 1) spawn_every_x_ticks, none, r)

/-- `SPAWN_AFTER_X_TICKS` from the source. -/
def SPAWN_AFTER_X_TICKS : Int := 20

/-- `EaterSpawner::update`.  Note that the spawn test reads the *old* counter
field while the local increment is applied to the new one, as in the source. -/
def EaterSpawner.update (ticks_without_eater : Int) (w : World) (r : Rng) :
    Entity × Option Entity × Rng :=
  let t1 := if w.get_eater_entities.length = 0 then ticks_without_eater + 1
            else ticks_without_eater
  if ticks_without_eater > SPAWN_AFTER_X_TICKS then
    let (x, r1) := genRange r w.width
    let (y, r2) := genRange r1 w.height
    let spawn_position : Position := ⟨x, y⟩
    let created : Option Entity :=
      if (w.get_entity_at spawn_position).isNone then some (Eater.new spawn_position) else none
    (.eaterSpawner 0, created, r2)
  else
    (.eaterSpawner t1, none, r)

/-- Dynamic dispatch of `Updateable::update` over the entity kinds. -/
def Entity.update (e : Entity) (w : World) (r : Rng) :
    Option (Entity × Option Entity × Option Nat × Rng) :=
  match e with
  | .food p => some (.food p, none, none, r)
  | .foodSpawner ls se =>
    let (e2, sp, r2) := FoodSpawner.update ls se w r
    some (e2, sp, none, r2)
  | .eaterSpawner t =>
    let (e2, sp, r2) := EaterSpawner.update t w r
    some (e2, sp, none, r2)
  | .eater p h a lr th => Eater.update p h a lr th w r

/-- Accumulated state while iterating the entities of one tick. -/
structure TickState where
  entities : List Entity
  removed : List Nat
  spawned : List Entity
  rng : Rng
deriving DecidableEq

/-- One index step of `World::update`: skip indices already marked for
removal; otherwise run the entity's transition against a view holding the
current (partially replaced) entity list and the current removal marks, then
store the replacement in place and accumulate spawn/removal. -/
def tickStep (width height : Int) (act mreq : Bool) (st : TickState) (i : Nat) :
    Option TickState :=
  if i ∈ st.removed then some st
  else
    match st.entities.get? i with
    | none => none
    | some e =>
      let view : World := ⟨width, height, st.entities, st.removed, act, mreq⟩
      match e.update view st.rng with
      | none => none
      | some (e2, sp, rem, r2) =>
        some ⟨st.entities.set i e2,
          match rem with | none => st.removed | some k => st.removed ++ [k],
          match sp with | none => st.spawned | some c => st.spawned ++ [c],
          r2⟩

/-- Run the per-entity phase of `World::update` over the first `n` indices. -/
def tickRun (w : World) (r : Rng) (n : Nat) : Option TickState :=
  (List.range n).foldlM (tickStep w.width w.height w.active w.manual_update_requested)
    ⟨w.entities, w.removed_entity_indices, [], r⟩

/-- `Vec::swap_remove`: replace index `i` with the last element and drop the
last; `none` models the out-of-range panic. -/
def swapRemove (l : List α) (i : Nat) : Option (List α) :=
  match l.getLast? with
  | none => none
  | some a => if i < l.length then some ((l.set i a).dropLast) else none

/-- Insertion into a descending list. -/
def insertDesc (a : Nat) : List Nat → List Nat
  | [] => [a]
  | b :: t => if b ≤ a then a :: b :: t else b :: insertDesc a t

/-- Sort descending (the source sorts ascending and reverses). -/
def sortDesc (l : List Nat) : List Nat :=
  l.foldr insertDesc []

/-- `World::update`: run every entity's transition, then apply the removal
indices in descending order via `swap_remove`, clear them, and append the
spawned entities. -/
def World.update (w : World) (r : Rng) : Option (World × Rng) :=
  match tickRun w r w.entities.length with
  | none => none
  | some st =>
    match (sortDesc st.removed).foldlM swapRemove st.entities with
    | none => none
    | some ents2 =>
      some (⟨w.width, w.height, ents2 ++ st.spawned, [], w.active,
        w.manual_update_requested⟩, st.rng)

/-- `World::update_if_active`. -/
def World.update_if_active (w : World) (r : Rng) : Option (World × Rng) :=
  if w.active then World.update w r
  else if w.manual_update_requested then
    World.update { w with manual_update_requested := false } r
  else some (w, r)

/-- `World::new`. -/
def World.new (width height : Int) : World :=
  ⟨width, height, [], [], true, false⟩

/-- Advance a world `n` ticks, threading the RNG state. -/
def advanceN : Nat → World → Rng → Option (World × Rng)
  | 0, w, r => some (w, r)
  | n + 1, w, r =>
    match World.update w r with
    | none => none
    | some (w2, r2) => advanceN n w2 r2

/-- Render output after `n` ticks from a world and an RNG state. -/
def renderAfter (n : Nat) (w : World) (r : Rng) : Option (List (Position × String)) :=
  (advanceN n w r).map (fun pr => pr.1.render)

/-- First element of the list minimizing `f`, earlier elements winning ties
(`0` for the empty list, which cannot occur at its use site). -/
def argminFirst (f : Nat → Int) : List Nat → Nat
  | [] => 0
  | x :: xs => xs.foldl (fun acc y => if f y < f acc then y else acc) x

/-- Goal selection as the specification words it: identical to
`Eater.select_goal` except that the `GetFood` target is described directly as
the visible food index of minimum Manhattan distance, ties broken by the
first such index in iteration order. -/
def select_goal_spec (selfPos : Position) (hunger age last_reproduced threshold : Int)
    (w : World) : EaterGoal :=
  if hunger > 99 ∨ age > 1000 then .die
  else if hunger < 20 ∧ age > 40 ∧ last_reproduced > 40 then .reproduce
  else if hunger < threshold ∨ w.get_food_entities.length = 0 then .wander
  else .getFood (argminFirst (distTo w selfPos) w.get_food_entities)

/-- World with an eater about to wander and a food spawner about to spawn:
exhibits a transition observing another entity's same-tick replacement. -/
def exWorldView : World :=
  ⟨3, 3, [.eater ⟨1, 1⟩ 0 0 0 20, .foodSpawner 9 10], [], true, false⟩

/-- Draw stream for `exWorldView`: three shuffle draws for the eater, then
the spawner sampling cell (1,1), the eater's start-of-tick position. -/
def exRngView : Rng := [0, 0, 0, 1, 1]

/-- World with a wandering eater at (1,1) and a food at (1,0): under the draw
stream `[0,0,0]` the shuffled order is R, D, L, U, so (2,1) is attempted
first and is free, yet the loop keeps the last candidate (1,0). -/
def exWorldWander : World :=
  ⟨3, 3, [.eater ⟨1, 1⟩ 0 0 0 20, .food ⟨1, 0⟩], [], true, false⟩

/-- World whose only entity is an eater whose hunger becomes 100 by this
tick's increment. -/
def exWorldHunger99 : World :=
  ⟨3, 3, [.eater ⟨1, 1⟩ 99 0 0 20], [], true, false⟩

/-- 2×2 world where the hungry eater at (0,0) is walled off from the food at
(1,1) by two other eaters, so its third pathfinding retry has no path. -/
def exWorldWalled : World :=
  ⟨2, 2, [.eater ⟨0, 0⟩ 50 0 0 20, .eater ⟨1, 0⟩ 0 0 0 20,
    .eater ⟨0, 1⟩ 0 0 0 20, .food ⟨1, 1⟩], [], true, false⟩

/-- The food-spawner scenario world from the specification and the source's
own test: `World(10,10)` with a single `FoodSpawner{last_spawned: 9,
spawn_every_x_ticks: 10}`. -/
def exWorldSpawner : World :=
  ⟨10, 10, [.foodSpawner 9 10], [], true, false⟩

/-- Degenerate 200000000×1 world whose only food lies at Manhattan distance
199999999 from the eater, beyond the `99999999` initial minimum of
`select_goal`. -/
def exWorldFarFood : World :=
  ⟨200000000, 1, [.eater ⟨0, 0⟩ 50 0 0 20, .food ⟨199999999, 0⟩], [], true, false⟩

/-- World with a food spawner at index 0 and an eater standing at the origin
at index 1. -/
def exWorldOrigin : World :=
  ⟨3, 3, [.foodSpawner 0 10, .eater ⟨0, 0⟩ 0 0 0 20], [], true, false⟩

/-- All in-bounds grid cells of a `W × H` grid, used to bound the size of the
breadth-first layers. -/
def gridList (W H : Int) : List Position :=
  (List.range W.toNat).flatMap (fun a =>
    (List.range H.toNat).map (fun b => (⟨Int.ofNat a, Int.ofNat b⟩ : Position)))

/-- C9: update and render are pure functions of the world state and the RNG
state, so two identically constructed worlds advanced the same number of
ticks with equal draw streams render identically. -/
theorem render_deterministic (w1 w2 : World) (r1 r2 : Rng) (n : Nat)
    (hw : w1 = w2) (hr : r1 = r2) : renderAfter n w1 r1 = renderAfter n w2 r2 := by
  subst hw; subst hr; rfl

/-- Witness for `render_deterministic` at a concrete world, stream and tick
count. -/
theorem render_deterministic_witness :
    renderAfter 2 exWorldView exRngView = renderAfter 2 exWorldView exRngView :=
  render_deterministic exWorldView exWorldView exRngView exRngView 2 rfl rfl

/-- C2, evaluation at the failing input: with draw stream `[0,0,0]` the
shuffled order is R, D, L, U; the first attempted cell (2,1) is unoccupied,
yet the eater ends the tick at (1,0), the cell occupied by the food, because
the movement loop keeps the candidate of the last direction tried. -/
theorem wander_keeps_last_attempt :
    shuffle CARDINAL_DIRECTIONS [0, 0, 0] = ([.right, .down, .left, .up], []) ∧
    Entity.update (.eater ⟨1, 1⟩ 0 0 0 20) exWorldWander [0, 0, 0] =
      some (.eater ⟨1, 0⟩ 1 1 1 20, none, none, []) ∧
    (exWorldWander.get_entity_at ⟨2, 1⟩).isNone = true ∧
    (exWorldWander.get_entity_at ⟨1, 0⟩).isSome = true := by
  decide

/-- C3, counterexample: an eater whose hunger becomes 100 by this tick's
increment does not select Die on this tick — goal selection reads the
pre-increment hunger 99 and chooses Wander, and the eater survives the tick
with hunger 100. -/
theorem hunger99_selects_wander :
    Eater.select_goal ⟨1, 1⟩ 99 0 0 20 exWorldHunger99 = .wander ∧
    Eater.select_goal ⟨1, 1⟩ 99 0 0 20 exWorldHunger99 ≠ .die ∧
    World.update exWorldHunger99 [0, 0, 0] =
      some (⟨3, 3, [.eater ⟨1, 0⟩ 100 1 1 20], [], true, false⟩, []) := by
  decide

/-- C6, evaluation at the failing input: when the ignored positions disconnect
start from goal, `a_star_pathfind` reaches the source's
`panic!("No path to goal found")` (embedded as `none`), and the panic aborts
the whole `World::update` of the walled-in-eater world instead of being
contained to that entity's transition. -/
theorem unreachable_path_panics :
    a_star_pathfind ⟨0, 0⟩ ⟨1, 1⟩ [⟨1, 0⟩, ⟨0, 1⟩] 2 2 = none ∧
    World.update exWorldWalled [] = none := by
  decide

/-- C1, counterexample: after index 0 (the eater) is processed, the view
handed to index 1 (the spawner) already holds the eater's replacement state —
moved from (1,1) to (1,0) with incremented counters — so the spawner samples
the vacated cell (1,1) as free and spawns food there, yielding 3 entities
where a start-of-tick view would have blocked the spawn. -/
theorem view_sees_replacement :
    tickRun exWorldView exRngView 1 =
      some ⟨[.eater ⟨1, 0⟩ 1 1 1 20, .foodSpawner 9 10], [], [], [1, 1]⟩ ∧
    exWorldView.entities = [.eater ⟨1, 1⟩ 0 0 0 20, .foodSpawner 9 10] ∧
    (Entity.eater ⟨1, 0⟩ 1 1 1 20 ≠ Entity.eater ⟨1, 1⟩ 0 0 0 20) ∧
    (World.update exWorldView exRngView).map (fun pr => pr.1.entities.length) =
      some 3 := by
  decide

/-- C7, counterexample: an RNG state whose two draws sample cell (0,0) — the
cell every spawner reports as its own position — makes the spawn silently
skip, so the update yields 1 entity, not 2. -/
theorem spawn_blocked_at_origin :
    (World.update exWorldSpawner [0, 0]).map (fun pr => pr.1.entities.length) =
      some 1 ∧
    (World.update exWorldSpawner [0, 0]).map (fun pr => pr.1.entities.length) ≠
      some 2 := by
  decide

/-- C4, counterexample: when every visible food sits at Manhattan distance of
at least 99999999 (the fold's initial minimum), no food ever beats the
initial accumulator and `select_goal` returns `GetFood(0)` even though index
0 is the eater itself; the index of minimum distance is 1. -/
theorem far_food_misindexed :
    Eater.select_goal ⟨0, 0⟩ 50 0 0 20 exWorldFarFood = .getFood 0 ∧
    select_goal_spec ⟨0, 0⟩ 50 0 0 20 exWorldFarFood = .getFood 1 ∧
    exWorldFarFood.get_food_entities = [1] ∧
    (exWorldFarFood.entities.getD 0 (.food ⟨0, 0⟩)).get_name ≠ "food" := by
  decide

/-- Unfolding of the per-entity phase one index at a time. -/
theorem tickRun_succ (w : World) (r : Rng) (i : Nat) :
    tickRun w r (i + 1) = (tickRun w r i).bind
      (fun st => tickStep w.width w.height w.active w.manual_update_requested st i) := by
  unfold tickRun
  rw [List.range_succ, List.foldlM_append]
  cases (List.range i).foldlM (tickStep w.width w.height w.active w.manual_update_requested)
      (⟨w.entities, w.removed_entity_indices, [], r⟩ : TickState) with
  | none => rfl
  | some st => simp

/-- C1, amended: during `World::update` the view handed to the transition at
index `i` always has the start-of-tick number of entities — entities spawned
this tick are never visible — and agrees with the start-of-tick entity list
at every not-yet-processed index `j ≥ i`; only the earlier-indexed entities'
same-tick replacement states (and same-tick removal marks) are visible. -/
theorem tick_views_keep_unprocessed_suffix (w : World) (r : Rng) :
    ∀ (i : Nat) (st : TickState), tickRun w r i = some st →
      st.entities.length = w.entities.length ∧
      ∀ j, i ≤ j → st.entities.get? j = w.entities.get? j := by
  intro i
  induction i with
  | zero =>
    intro st h
    have hst : st = ⟨w.entities, w.removed_entity_indices, [], r⟩ := by
      simpa [tickRun] using h.symm
    subst hst
    exact ⟨rfl, fun j _ => rfl⟩
  | succ i ih =>
    intro st h
    rw [tickRun_succ, Option.bind_eq_some] at h
    obtain ⟨st1, h1, hstep⟩ := h
    obtain ⟨hlen, hsuff⟩ := ih st1 h1
    unfold tickStep at hstep
    split at hstep
    · cases hstep
      exact ⟨hlen, fun j hj => hsuff j (Nat.le_of_succ_le hj)⟩
    · split at hstep
      · cases hstep
      · dsimp only at hstep
        split at hstep
        · cases hstep
        · rename_i e hget e2 sp rem r2 hupd
          cases hstep
          refine ⟨by simpa [List.length_set] using hlen, fun j hj => ?_⟩
          have hne : i ≠ j := Nat.ne_of_lt (Nat.lt_of_succ_le hj)
          calc (st1.entities.set i e2).get? j
              = st1.entities.get? j := by
                simp [List.get?_eq_getElem?, List.getElem?_set_ne hne]
            _ = w.entities.get? j := hsuff j (Nat.le_of_succ_le hj)

/-- Witness for `tick_views_keep_unprocessed_suffix`: in the concrete run on
`exWorldView`, the view after one processed entity still agrees with the
start-of-tick entities at the unprocessed index 1. -/
theorem tick_views_witness :
    (⟨[.eater ⟨1, 0⟩ 1 1 1 20, .foodSpawner 9 10], [], [], [1, 1]⟩ :
      TickState).entities.get? 1 = exWorldView.entities.get? 1 :=
  (tick_views_keep_unprocessed_suffix exWorldView exRngView 1
    ⟨[.eater ⟨1, 0⟩ 1 1 1 20, .foodSpawner 9 10], [], [], [1, 1]⟩
    (by decide)).2 1 (Nat.le_refl 1)

/-- Shape of every successful `Eater::update`: the replacement entity keeps
the threshold, has age incremented by exactly 1, hunger produced by
`increment_desire` (the +1 tick increment, possibly followed by the −20 of a
consumed food), reproduction timer either incremented by 1 or reset to 0, and
any spawned entity is a fresh `Eater::new`. -/
theorem eater_update_shape (pos : Position) (h a lr th : Int) (w : World) (r : Rng)
    (e2 : Entity) (sp : Option Entity) (rem : Option Nat) (r2 : Rng)
    (hupd : Entity.update (.eater pos h a lr th) w r = some (e2, sp, rem, r2)) :
    ∃ p2 h2 lr2, e2 = .eater p2 h2 (a + 1) lr2 th ∧
      (h2 = increment_desire h 1 ∨
        h2 = increment_desire (increment_desire h 1) (-20)) ∧
      (lr2 = lr + 1 ∨ lr2 = 0) ∧
      (sp = none ∨ ∃ cp, sp = some (Eater.new cp)) := by
  unfold Entity.update Eater.update at hupd
  dsimp only at hupd
  split at hupd
  · -- Wander
    simp only [Option.some.injEq, Prod.mk.injEq] at hupd
    obtain ⟨he, hsp, hrem, hr⟩ := hupd
    exact ⟨_, _, _, he.symm, Or.inl rfl, Or.inl rfl, Or.inl hsp.symm⟩
  · -- GetFood
    split at hupd
    · cases hupd
    · split at hupd
      · cases hupd
      · split at hupd
        · simp only [Option.some.injEq, Prod.mk.injEq] at hupd
          obtain ⟨he, hsp, hrem, hr⟩ := hupd
          exact ⟨_, _, _, he.symm, Or.inr rfl, Or.inl rfl, Or.inl hsp.symm⟩
        · simp only [Option.some.injEq, Prod.mk.injEq] at hupd
          obtain ⟨he, hsp, hrem, hr⟩ := hupd
          exact ⟨_, _, _, he.symm, Or.inl rfl, Or.inl rfl, Or.inl hsp.symm⟩
  · -- Die
    split at hupd
    · cases hupd
    · simp only [Option.some.injEq, Prod.mk.injEq] at hupd
      obtain ⟨he, hsp, hrem, hr⟩ := hupd
      exact ⟨_, _, _, he.symm, Or.inl rfl, Or.inl rfl, Or.inl hsp.symm⟩
  · -- Reproduce
    split at hupd
    · simp only [Option.some.injEq, Prod.mk.injEq] at hupd
      obtain ⟨he, hsp, hrem, hr⟩ := hupd
      exact ⟨_, _, _, he.symm, Or.inl rfl, Or.inr rfl,
        Or.inr ⟨_, hsp.symm⟩⟩
    · simp only [Option.some.injEq, Prod.mk.injEq] at hupd
      obtain ⟨he, hsp, hrem, hr⟩ := hupd
      exact ⟨_, _, _, he.symm, Or.inl rfl, Or.inl rfl, Or.inl hsp.symm⟩

/-- C3, amended: every Eater tick applies the +1 increments to hunger, age
and reproduction timer of the successor state (the Reproduce arm may then
reset the timer to 0 and the GetFood arm may further reduce hunger by 20),
but goal selection is evaluated on the pre-increment values: an eater whose
hunger becomes 100 by this tick's increment does not select Die this tick —
it selects Die on the next tick, from the stored value 100. -/
theorem eater_ticks_increment_but_goal_reads_pre_state :
    (∀ pos h a lr th (w : World) r e2 sp rem r2,
      Entity.update (.eater pos h a lr th) w r = some (e2, sp, rem, r2) →
      ∃ p2 h2 lr2, e2 = .eater p2 h2 (a + 1) lr2 th ∧
        (h2 = increment_desire h 1 ∨
          h2 = increment_desire (increment_desire h 1) (-20)) ∧
        (lr2 = lr + 1 ∨ lr2 = 0)) ∧
    (∀ pos a lr th (w : World) r, w.get_food_entities = [] → a ≤ 1000 →
      Eater.select_goal pos 99 a lr th w ≠ .die ∧
      ∀ e2 sp rem r2,
        Entity.update (.eater pos 99 a lr th) w r = some (e2, sp, rem, r2) →
        rem = none ∧ ∃ p2, e2 = .eater p2 100 (a + 1) (lr + 1) th ∧
          ∀ w2, Eater.select_goal p2 100 (a + 1) (lr + 1) th w2 = .die) := by
  constructor
  · intro pos h a lr th w r e2 sp rem r2 hupd
    obtain ⟨p2, h2, lr2, he, hh, hlr, _⟩ :=
      eater_update_shape pos h a lr th w r e2 sp rem r2 hupd
    exact ⟨p2, h2, lr2, he, hh, hlr⟩
  · intro pos a lr th w r hfoods ha
    have hgoal : Eater.select_goal pos 99 a lr th w = .wander := by
      simp only [Eater.select_goal, hfoods]
      have h1 : ¬((99 : Int) > 99 ∨ a > 1000) := by omega
      have h2 : ¬((99 : Int) < 20 ∧ a > 40 ∧ lr > 40) := by
        intro hc
        omega
      rw [if_neg h1, if_neg h2]
      simp
    refine ⟨?_, ?_⟩
    · rw [hgoal]
      intro hc
      cases hc
    intro e2 sp rem r2 hupd
    unfold Entity.update at hupd
    dsimp only at hupd
    unfold Eater.update at hupd
    rw [hgoal] at hupd
    dsimp only at hupd
    simp only [Option.some.injEq, Prod.mk.injEq] at hupd
    obtain ⟨he, hsp, hrem, hr⟩ := hupd
    have hinc : increment_desire 99 1 = 100 := by decide
    refine ⟨hrem.symm, wanderLast w pos (shuffle CARDINAL_DIRECTIONS r).1, ?_, ?_⟩
    · rw [← he, hinc]
    · intro w2
      simp only [Eater.select_goal]
      rw [if_pos (Or.inl (by norm_num))]

/-- Witness for `eater_ticks_increment_but_goal_reads_pre_state`: the
hunger-99 eater of `exWorldHunger99` does not select Die this tick. -/
theorem eater_ticks_increment_witness :
    Eater.select_goal ⟨1, 1⟩ 99 0 0 20 exWorldHunger99 ≠ .die :=
  (eater_ticks_increment_but_goal_reads_pre_state.2 ⟨1, 1⟩ 0 0 20 exWorldHunger99
    [0, 0, 0] (by decide) (by decide)).1

/-- C8: the hunger desire can never become negative.  `increment_desire`
clamps every stored value at 0 from below (including the −20 on consuming
food), `Eater::new` starts hunger at 0, and every successful `Eater::update`
leaves both the replacement eater and any spawned offspring with hunger at
least 0. -/
theorem hunger_never_negative :
    (∀ v inc : Int, 0 ≤ increment_desire v inc) ∧
    (∀ p, Eater.new p = .eater p 0 0 0 20) ∧
    (∀ pos h a lr th (w : World) r e2 sp rem r2,
      Entity.update (.eater pos h a lr th) w r = some (e2, sp, rem, r2) →
      (∀ p2 h2 a2 lr2 th2, e2 = .eater p2 h2 a2 lr2 th2 → 0 ≤ h2) ∧
      (∀ c, sp = some c → ∀ p2 h2 a2 lr2 th2, c = .eater p2 h2 a2 lr2 th2 → 0 ≤ h2)) := by
  have hnn : ∀ v inc : Int, 0 ≤ increment_desire v inc := by
    intro v inc
    unfold increment_desire
    dsimp only
    split
    · exact le_refl 0
    · omega
  refine ⟨hnn, fun p => rfl, ?_⟩
  intro pos h a lr th w r e2 sp rem r2 hupd
  obtain ⟨p2, h2, lr2, he, hh, _, hsp⟩ :=
    eater_update_shape pos h a lr th w r e2 sp rem r2 hupd
  constructor
  · intro p3 h3 a3 lr3 th3 he3
    rw [he] at he3
    obtain ⟨_, hh3, _, _, _⟩ := Entity.eater.injEq .. |>.mp he3
    rcases hh with hh | hh <;> rw [← hh3, hh] <;> exact hnn _ _
  · intro c hc p3 h3 a3 lr3 th3 he3
    rcases hsp with hnone | ⟨cp, hcp⟩
    · rw [hnone] at hc; cases hc
    · rw [hcp] at hc
      cases hc
      rw [Eater.new] at he3
      obtain ⟨_, hh3, _, _, _⟩ := Entity.eater.injEq .. |>.mp he3
      omega

/-- Witness for `hunger_never_negative`: the updated eater of
`exWorldHunger99` has nonnegative hunger (it is 100). -/
theorem hunger_never_negative_witness : (0 : Int) ≤ 100 :=
  ((hunger_never_negative.2.2 ⟨1, 1⟩ 99 0 0 20 exWorldHunger99 [0, 0, 0]
    (.eater ⟨1, 0⟩ 100 1 1 20) none none [] (by decide)).1
    ⟨1, 0⟩ 100 1 1 20 rfl)

/-- Occupancy scan success: if some entity sits at index `i` of the scanned
list with matching position and its absolute index is not removal-marked, the
scan finds an entity. -/
theorem findAtAux_isSome (removed : List Nat) (p : Position) :
    ∀ (l : List Entity) (k i : Nat) (e : Entity), l.get? i = some e →
      e.get_position = p → ¬ (k + i) ∈ removed → (findAtAux removed p l k).isSome := by
  intro l
  induction l with
  | nil => intro k i e hget; cases hget
  | cons x rest ih =>
    intro k i e hget hpos hrem
    unfold findAtAux
    cases i with
    | zero =>
      cases hget
      rw [Nat.add_zero] at hrem
      rw [if_neg hrem, if_pos hpos]
      rfl
    | succ i =>
      have hrem2 : ¬ (k + 1 + i) ∈ removed := by
        rw [show k + 1 + i = k + (i + 1) by omega]
        exact hrem
      by_cases hk : k ∈ removed
      · rw [if_pos hk]
        exact ih (k + 1) i e hget hpos hrem2
      · rw [if_neg hk]
        by_cases hx : x.get_position = p
        · rw [if_pos hx]; rfl
        · rw [if_neg hx]
          exact ih (k + 1) i e hget hpos hrem2

/-- Position scan minimality: if index `j` of the scanned list satisfies the
predicate, the scan returns some index at most `base + j`. -/
theorem findIdxAux_le (pred : Entity → Bool) :
    ∀ (l : List Entity) (base j : Nat) (e : Entity), l.get? j = some e →
      pred e = true → ∃ k, findIdxAux pred l base = some k ∧ k ≤ base + j := by
  intro l
  induction l with
  | nil => intro base j e hget; cases hget
  | cons x rest ih =>
    intro base j e hget hpred
    unfold findIdxAux
    by_cases hx : pred x
    · exact ⟨base, by rw [if_pos hx], Nat.le_add_right base j⟩
    · rw [if_neg hx]
      cases j with
      | zero => cases hget; exact absurd hpred hx
      | succ j =>
        obtain ⟨k, hk, hle⟩ := ih (base + 1) j e hget hpred
        exact ⟨k, hk, by omega⟩

/-- C10: both spawner kinds report position (0,0), so while a spawner is
present (and not removal-marked) `get_entity_at((0,0))` always returns an
entity — cell (0,0) reads as permanently occupied to every spawn-placement
and movement occupancy check — and the position-based self lookup of the Die
arm, run by an eater standing at (0,0) with a spawner at a lower index,
resolves to an index other than the eater's own. -/
theorem spawners_occupy_origin :
    (∀ ls se, Entity.get_position (.foodSpawner ls se) = (⟨0, 0⟩ : Position)) ∧
    (∀ t, Entity.get_position (.eaterSpawner t) = (⟨0, 0⟩ : Position)) ∧
    (∀ (w : World) (i : Nat) (e : Entity), w.entities.get? i = some e →
      e.get_position = (⟨0, 0⟩ : Position) → ¬ i ∈ w.removed_entity_indices →
      (w.get_entity_at ⟨0, 0⟩).isSome) ∧
    (∀ (w : World) (j i : Nat) (ls se h a lr th : Int),
      w.entities.get? j = some (.foodSpawner ls se) →
      w.entities.get? i = some (.eater ⟨0, 0⟩ h a lr th) → j < i →
      ∃ k, w.find_self_idx ⟨0, 0⟩ = some k ∧ k ≠ i) := by
  refine ⟨fun ls se => rfl, fun t => rfl, ?_, ?_⟩
  · intro w i e hget hpos hrem
    exact findAtAux_isSome w.removed_entity_indices ⟨0, 0⟩ w.entities 0 i e hget hpos
      (by simpa using hrem)
  · intro w j i ls se h a lr th hj hi hlt
    obtain ⟨k, hk, hle⟩ := findIdxAux_le (fun e => decide (e.get_position = (⟨0, 0⟩ : Position)))
      w.entities 0 j (.foodSpawner ls se) hj (by simp [Entity.get_position])
    exact ⟨k, hk, by omega⟩

/-- Witness for `spawners_occupy_origin` on `exWorldOrigin`: the origin reads
as occupied, and the dying eater at (0,0) resolves index 0 (the spawner), not
its own index 1. -/
theorem spawners_occupy_origin_witness :
    (exWorldOrigin.get_entity_at ⟨0, 0⟩).isSome ∧
    ∃ k, exWorldOrigin.find_self_idx ⟨0, 0⟩ = some k ∧ k ≠ 1 :=
  ⟨spawners_occupy_origin.2.2.1 exWorldOrigin 0 (.foodSpawner 0 10) (by decide) (by decide)
      (by decide),
    spawners_occupy_origin.2.2.2 exWorldOrigin 0 1 0 10 0 0 0 20 (by decide) (by decide)
      (by decide)⟩

/-- The indexed minimum fold of `select_goal` never moves off an accumulator
that no remaining element beats. -/
theorem foldl_min_skip (f : Nat → Int) :
    ∀ (l : List Nat) (i0 : Nat) (m0 : Int), (∀ j ∈ l, ¬ f j < m0) →
      l.foldl (fun acc idx => if f idx < acc.2 then (idx, f idx) else acc) (i0, m0) =
        (i0, m0) := by
  intro l
  induction l with
  | nil => intro i0 m0 _; rfl
  | cons y t ih =>
    intro i0 m0 hall
    simp only [List.foldl_cons]
    rw [if_neg (hall y (List.mem_cons_self y t))]
    exact ih i0 m0 (fun j hj => hall j (List.mem_cons_of_mem y hj))

/-- Once the accumulator of the indexed minimum fold carries the distance of
its own index, it tracks the plain first-argmin fold. -/
theorem foldl_min_sync (f : Nat → Int) :
    ∀ (l : List Nat) (x : Nat),
      l.foldl (fun acc idx => if f idx < acc.2 then (idx, f idx) else acc) (x, f x) =
        (l.foldl (fun acc y => if f y < f acc then y else acc) x,
          f (l.foldl (fun acc y => if f y < f acc then y else acc) x)) := by
  intro l
  induction l with
  | nil => intro x; rfl
  | cons y t ih =>
    intro x
    simp only [List.foldl_cons]
    by_cases hf : f y < f x
    · rw [if_pos hf, if_pos hf]
      exact ih y
    · rw [if_neg hf, if_neg hf]
      exact ih x

/-- The first-argmin fold returns the start or a member of the list. -/
theorem foldl_argmin_mem (f : Nat → Int) :
    ∀ (l : List Nat) (x : Nat),
      l.foldl (fun acc y => if f y < f acc then y else acc) x ∈ x :: l := by
  intro l
  induction l with
  | nil => intro x; exact List.mem_cons_self x []
  | cons y t ih =>
    intro x
    simp only [List.foldl_cons]
    by_cases hf : f y < f x
    · rw [if_pos hf]
      have := ih y
      simp only [List.mem_cons] at this ⊢
      tauto
    · rw [if_neg hf]
      have := ih x
      simp only [List.mem_cons] at this ⊢
      tauto

/-- Split a list at its first element of `f`-value below `B`. -/
theorem exists_first_lt (f : Nat → Int) (B : Int) :
    ∀ (l : List Nat), (∃ j ∈ l, f j < B) →
      ∃ l1 x l2, l = l1 ++ x :: l2 ∧ f x < B ∧ ∀ j ∈ l1, ¬ f j < B := by
  intro l
  induction l with
  | nil => intro hex; obtain ⟨j, hj, _⟩ := hex; cases hj
  | cons y t ih =>
    intro hex
    by_cases hy : f y < B
    · exact ⟨[], y, t, rfl, hy, fun j hj => absurd hj (List.not_mem_nil j)⟩
    · obtain ⟨j, hj, hfj⟩ := hex
      rcases List.mem_cons.mp hj with hje | hjt
      · exact absurd (hje ▸ hfj) hy
      · obtain ⟨l1, x, l2, heq, hx, hall⟩ := ih ⟨j, hjt, hfj⟩
        refine ⟨y :: l1, x, l2, by rw [heq]; rfl, hx, ?_⟩
        intro j2 hj2
        rcases List.mem_cons.mp hj2 with hj2 | hj2
        · exact hj2 ▸ hy
        · exact hall j2 hj2

/-- The `select_goal` fold starting at `(0, 99999999)` computes the first
index of minimum `f`-value, provided some element beats the initial
sentinel. -/
theorem code_fold_eq_argmin (f : Nat → Int) (l : List Nat)
    (hex : ∃ j ∈ l, f j < 99999999) :
    (l.foldl (fun acc idx => if f idx < acc.2 then (idx, f idx) else acc)
      ((0 : Nat), (99999999 : Int))).1 = argminFirst f l := by
  obtain ⟨l1, x, l2, heq, hx, hall⟩ := exists_first_lt f 99999999 l hex
  subst heq
  rw [List.foldl_append, foldl_min_skip f l1 0 99999999 hall]
  simp only [List.foldl_cons]
  rw [if_pos hx, foldl_min_sync f l2 x]
  cases l1 with
  | nil => rfl
  | cons y t =>
    show _ = argminFirst f (y :: (t ++ x :: l2))
    unfold argminFirst
    dsimp only
    rw [List.foldl_append]
    have hr : t.foldl (fun acc z => if f z < f acc then z else acc) y ∈ y :: t :=
      foldl_argmin_mem f t y
    have hrB : ¬ f (t.foldl (fun acc z => if f z < f acc then z else acc) y) < 99999999 :=
      hall _ hr
    simp only [List.foldl_cons]
    rw [if_pos (by omega : f x < f (t.foldl (fun acc z => if f z < f acc then z else acc) y))]

/-- C4, amended: `select_goal` agrees with the specification's description of
goal selection (Die, Reproduce and Wander branches verbatim, then GetFood on
the first visible food index of minimum Manhattan distance) provided at least
one visible food lies at Manhattan distance below 99999999, the fold's
initial sentinel minimum — always true on grids with width + height below
that bound. -/
theorem select_goal_matches_spec (pos : Position) (hunger age lr th : Int) (w : World)
    (hex : ∃ j ∈ w.get_food_entities, distTo w pos j < 99999999) :
    Eater.select_goal pos hunger age lr th w = select_goal_spec pos hunger age lr th w := by
  unfold Eater.select_goal select_goal_spec
  dsimp only
  by_cases h1 : hunger > 99 ∨ age > 1000
  · rw [if_pos h1, if_pos h1]
  · rw [if_neg h1, if_neg h1]
    by_cases h2 : hunger < 20 ∧ age > 40 ∧ lr > 40
    · rw [if_pos h2, if_pos h2]
    · rw [if_neg h2, if_neg h2]
      by_cases h3 : hunger < th ∨ w.get_food_entities.length = 0
      · rw [if_pos h3, if_pos h3]
      · rw [if_neg h3, if_neg h3]
        exact congrArg EaterGoal.getFood
          (code_fold_eq_argmin (distTo w pos) w.get_food_entities hex)

/-- Witness for `select_goal_matches_spec`: concrete agreement on
`exWorldWander` for a hungry eater seeing the food at distance 1. -/
theorem select_goal_matches_spec_witness :
    Eater.select_goal ⟨1, 1⟩ 50 0 0 20 exWorldWander =
      select_goal_spec ⟨1, 1⟩ 50 0 0 20 exWorldWander :=
  select_goal_matches_spec ⟨1, 1⟩ 50 0 0 20 exWorldWander ⟨1, by decide, by decide⟩


/-- C7, amended: for every RNG state, one update of the
`World(10,10)`-with-one-`FoodSpawner{9,10}` scenario spawns exactly one food
— 2 entities total — unless the two draws sample cell (0,0), which the
occupancy check reports as taken by the spawner itself (it reports position
(0,0)); in that case the spawn is silently skipped and 1 entity remains. -/
theorem food_spawner_tick_counts (r : Rng) :
    World.update exWorldSpawner r =
      some (⟨10, 10, .foodSpawner 0 10 ::
        (if (r.headD 0 : Int) % 10 = 0 ∧ (r.tail.headD 0 : Int) % 10 = 0 then []
         else [.food ⟨(r.headD 0 : Int) % 10, (r.tail.headD 0 : Int) % 10⟩]),
        [], true, false⟩, r.tail.tail) ∧
    (World.update exWorldSpawner r).map (fun pr => pr.1.entities.length) =
      some (if (r.headD 0 : Int) % 10 = 0 ∧ (r.tail.headD 0 : Int) % 10 = 0
        then 1 else 2) := by
  have hmain : World.update exWorldSpawner r =
      some (⟨10, 10, .foodSpawner 0 10 ::
        (if (r.headD 0 : Int) % 10 = 0 ∧ (r.tail.headD 0 : Int) % 10 = 0 then []
         else [.food ⟨(r.headD 0 : Int) % 10, (r.tail.headD 0 : Int) % 10⟩]),
        [], true, false⟩, r.tail.tail) := by
    by_cases hc : (r.headD 0 : Int) % 10 = 0 ∧ (r.tail.headD 0 : Int) % 10 = 0
    · rw [if_pos hc]
      have hp : (⟨0, 0⟩ : Position) =
          (⟨(r.headD 0 : Int) % 10, (r.tail.headD 0 : Int) % 10⟩ : Position) := by
        rw [Position.mk.injEq]
        exact ⟨hc.1.symm, hc.2.symm⟩
      simp only [World.update, tickRun, exWorldSpawner, tickStep, Entity.update,
        FoodSpawner.update, genRange, rngNext, World.get_entity_at, findAtAux,
        Entity.get_position, swapRemove, sortDesc, List.foldlM, List.range_succ,
        List.range_zero]
      rw [if_pos hp]
      norm_num
    · rw [if_neg hc]
      have hp : ¬ (⟨0, 0⟩ : Position) =
          (⟨(r.headD 0 : Int) % 10, (r.tail.headD 0 : Int) % 10⟩ : Position) := by
        rw [Position.mk.injEq]
        intro h
        exact hc ⟨h.1.symm, h.2.symm⟩
      simp only [World.update, tickRun, exWorldSpawner, tickStep, Entity.update,
        FoodSpawner.update, genRange, rngNext, World.get_entity_at, findAtAux,
        Entity.get_position, swapRemove, sortDesc, List.foldlM, List.range_succ,
        List.range_zero]
      rw [if_neg hp]
      norm_num
  refine ⟨hmain, ?_⟩
  rw [hmain]
  by_cases hc : (r.headD 0 : Int) % 10 = 0 ∧ (r.tail.headD 0 : Int) % 10 = 0
  · rw [if_pos hc, if_pos hc]
    rfl
  · rw [if_neg hc, if_neg hc]
    rfl

/-- Membership in one layer extension. -/
theorem mem_extendLayer (nb : Position → List Position) (cur : List Position)
    (q : Position) :
    q ∈ extendLayer nb cur ↔ q ∈ cur ∨ ∃ p ∈ cur, q ∈ nb p := by
  constructor
  · intro hq
    rcases List.mem_append.mp hq with hq | hq
    · exact Or.inl hq
    · rcases List.mem_filter.mp (List.mem_dedup.mp hq) with ⟨hmem, _⟩
      exact Or.inr (List.mem_flatMap.mp hmem)
  · intro hq
    by_cases hcur : q ∈ cur
    · exact List.mem_append_left _ hcur
    · rcases hq with hq | hq
      · exact absurd hq hcur
      · refine List.mem_append_right _ (List.mem_dedup.mpr (List.mem_filter.mpr ?_))
        exact ⟨List.mem_flatMap.mpr hq, by simpa using hcur⟩

/-- Layer 0 is the start alone. -/
theorem mem_reach_zero (nb : Position → List Position) (s q : Position) :
    q ∈ reachList nb s 0 ↔ q = s := by
  simp [reachList]

/-- Layer `n + 1` adds the neighbors of layer `n`. -/
theorem mem_reach_succ (nb : Position → List Position) (s q : Position) (n : Nat) :
    q ∈ reachList nb s (n + 1) ↔
      q ∈ reachList nb s n ∨ ∃ p ∈ reachList nb s n, q ∈ nb p :=
  mem_extendLayer nb (reachList nb s n) q

/-- Layers are monotone. -/
theorem reach_mono (nb : Position → List Position) (s : Position) {m n : Nat}
    (hmn : m ≤ n) : ∀ q, q ∈ reachList nb s m → q ∈ reachList nb s n := by
  induction n with
  | zero =>
    intro q hq
    rw [Nat.le_zero.mp hmn] at hq
    exact hq
  | succ n ih =>
    intro q hq
    rcases Nat.lt_or_ge m (n + 1) with hlt | hge
    · exact (mem_reach_succ nb s q n).mpr (Or.inl (ih (Nat.lt_succ_iff.mp hlt) q hq))
    · rw [Nat.le_antisymm hmn hge] at hq
      exact hq

/-- Extend a chain by one adjacent node at the end. -/
theorem isChain_append_one (nb : Position → List Position) :
    ∀ (l : List Position) (p q : Position), isChain nb l = true →
      l.getLast? = some p → q ∈ nb p → isChain nb (l ++ [q]) = true := by
  intro l
  induction l with
  | nil => intro p q _ hlast; cases hlast
  | cons a t ih =>
    intro p q hchain hlast hadj
    cases t with
    | nil =>
      cases hlast
      simp only [List.cons_append, List.nil_append, isChain, Bool.and_eq_true,
        decide_eq_true_iff]
      exact ⟨hadj, trivial⟩
    | cons b t2 =>
      simp only [isChain, Bool.and_eq_true, decide_eq_true_iff] at hchain
      have hlast2 : (b :: t2).getLast? = some p := by
        simpa using hlast
      have := ih p q hchain.2 hlast2 hadj
      simp only [List.cons_append, isChain, Bool.and_eq_true, decide_eq_true_iff]
      exact ⟨hchain.1, by simpa using this⟩

/-- Attach a start node before a chain whose head is adjacent to it. -/
theorem isChain_cons (nb : Position → List Position) (s q0 : Position)
    (l : List Position) (hhead : l.head? = some q0) (hadj : q0 ∈ nb s)
    (hchain : isChain nb l = true) : isChain nb (s :: l) = true := by
  cases l with
  | nil => cases hhead
  | cons a t =>
    cases hhead
    simp only [isChain, Bool.and_eq_true, decide_eq_true_iff]
    exact ⟨hadj, hchain⟩

/-- Soundness of the layers: a member of layer `n` is the endpoint of a chain
from the start with at most `n + 1` nodes. -/
theorem reach_sound (nb : Position → List Position) (s : Position) :
    ∀ (n : Nat) (q : Position), q ∈ reachList nb s n →
      ∃ l, isChain nb l = true ∧ l.head? = some s ∧ l.getLast? = some q ∧
        l.length ≤ n + 1 := by
  intro n
  induction n with
  | zero =>
    intro q hq
    rw [mem_reach_zero] at hq
    subst hq
    exact ⟨[q], rfl, rfl, rfl, by simp⟩
  | succ n ih =>
    intro q hq
    rcases (mem_reach_succ nb s q n).mp hq with hq | ⟨p, hp, hadj⟩
    · obtain ⟨l, hc, hh, hl, hlen⟩ := ih q hq
      exact ⟨l, hc, hh, hl, by omega⟩
    · obtain ⟨l, hc, hh, hl, hlen⟩ := ih p hp
      refine ⟨l ++ [q], isChain_append_one nb l p q hc hl hadj, ?_, ?_, ?_⟩
      · cases l with
        | nil => cases hh
        | cons a t => simpa using hh
      · simp
      · simp only [List.length_append, List.length_cons, List.length_nil]
        omega

/-- Split a chain ending in one extra node. -/
theorem isChain_split (nb : Position → List Position) :
    ∀ (l : List Position) (q : Position), isChain nb (l ++ [q]) = true → l ≠ [] →
      isChain nb l = true ∧ ∃ p, l.getLast? = some p ∧ q ∈ nb p := by
  intro l
  induction l with
  | nil => intro q _ hne; exact absurd rfl hne
  | cons a t ih =>
    intro q hchain _
    cases t with
    | nil =>
      simp only [List.cons_append, List.nil_append, isChain, Bool.and_eq_true,
        decide_eq_true_iff] at hchain
      exact ⟨rfl, a, rfl, hchain.1⟩
    | cons b t2 =>
      simp only [List.cons_append, isChain, Bool.and_eq_true, decide_eq_true_iff] at hchain
      obtain ⟨hcl, p, hlp, hadj⟩ := ih q (by simpa using hchain.2) (by simp)
      refine ⟨?_, p, by simpa using hlp, hadj⟩
      simp only [isChain, Bool.and_eq_true, decide_eq_true_iff]
      exact ⟨hchain.1, hcl⟩

/-- Completeness of the layers: the endpoint of a chain with `k + 1` nodes
from the start lies in layer `k`. -/
theorem reach_complete (nb : Position → List Position) (s : Position) :
    ∀ (l : List Position), isChain nb l = true → l.head? = some s →
      ∀ q, l.getLast? = some q → q ∈ reachList nb s (l.length - 1) := by
  intro l
  induction l using List.reverseRecOn with
  | nil => intro _ hh; cases hh
  | append_singleton l a ih =>
    intro hchain hhead q hlast
    have hq : q = a := by
      rw [List.getLast?_concat] at hlast
      exact (Option.some.inj hlast).symm
    subst hq
    by_cases hnil : l = []
    · subst hnil
      simp only [List.nil_append, List.head?_cons, Option.some.injEq] at hhead
      subst hhead
      simpa using (mem_reach_zero nb q q).mpr rfl
    · obtain ⟨hcl, p, hlp, hadj⟩ := isChain_split nb l q hchain hnil
      have hh2 : l.head? = some s := by
        cases l with
        | nil => exact absurd rfl hnil
        | cons b t => simpa using hhead
      have hp := ih hcl hh2 p hlp
      have hlen : l.length - 1 + 1 = l.length := by
        cases l with
        | nil => exact absurd rfl hnil
        | cons b t => simp
      have hmem : q ∈ reachList nb s (l.length - 1 + 1) :=
        (mem_reach_succ nb s q (l.length - 1)).mpr (Or.inr ⟨p, hp, hadj⟩)
      rw [hlen] at hmem
      simpa using hmem

/-- Every layer is duplicate-free. -/
theorem reach_nodup (nb : Position → List Position) (s : Position) :
    ∀ n, (reachList nb s n).Nodup := by
  intro n
  induction n with
  | zero => simp [reachList]
  | succ n ih =>
    show (extendLayer nb (reachList nb s n)).Nodup
    unfold extendLayer
    refine List.Nodup.append ih (List.nodup_dedup _) ?_
    intro a ha hb
    rcases List.mem_filter.mp (List.mem_dedup.mp hb) with ⟨_, hcond⟩
    simp only [decide_eq_true_iff] at hcond
    exact hcond ha

/-- Range of the neighbor expansion: always in bounds and never ignored. -/
theorem neighbors_mem (W H : Int) (ignored : List Position) (p q : Position)
    (hq : q ∈ neighbors W H ignored p) :
    (0 ≤ q.x ∧ q.x < W ∧ 0 ≤ q.y ∧ q.y < H) ∧ ¬ q ∈ ignored := by
  unfold neighbors at hq
  rcases List.mem_filterMap.mp hq with ⟨d, _, hd⟩
  dsimp only at hd
  split at hd
  · cases hd
    rename_i hcond
    exact hcond
  · cases hd

/-- Every layer member is the start or an in-bounds non-ignored cell. -/
theorem reach_subset_universe (W H : Int) (ignored : List Position) (s : Position) :
    ∀ n q, q ∈ reachList (neighbors W H ignored) s n →
      q = s ∨ ((0 ≤ q.x ∧ q.x < W ∧ 0 ≤ q.y ∧ q.y < H) ∧ ¬ q ∈ ignored) := by
  intro n
  induction n with
  | zero =>
    intro q hq
    exact Or.inl ((mem_reach_zero _ s q).mp hq)
  | succ n ih =>
    intro q hq
    rcases (mem_reach_succ _ s q n).mp hq with hq | ⟨p, _, hadj⟩
    · exact ih q hq
    · exact Or.inr (neighbors_mem W H ignored p q hadj)

/-- Membership in the grid cell list. -/
theorem mem_gridList (W H : Int) (p : Position) (hx0 : 0 ≤ p.x) (hxW : p.x < W)
    (hy0 : 0 ≤ p.y) (hyH : p.y < H) : p ∈ gridList W H := by
  unfold gridList
  rw [List.mem_flatMap]
  refine ⟨p.x.toNat, ?_, ?_⟩
  · rw [List.mem_range]
    omega
  · rw [List.mem_map]
    refine ⟨p.y.toNat, ?_, ?_⟩
    · rw [List.mem_range]
      omega
    · have h1 : (p.x.toNat : Int) = p.x := Int.toNat_of_nonneg hx0
      have h2 : (p.y.toNat : Int) = p.y := Int.toNat_of_nonneg hy0
      cases p
      simp_all

/-- Length of the grid cell list. -/
theorem gridList_length (W H : Int) : (gridList W H).length = W.toNat * H.toNat := by
  unfold gridList
  induction W.toNat with
  | zero => simp
  | succ n ih =>
    rw [List.range_succ, List.flatMap_append]
    simp only [List.length_append, ih]
    simp [Nat.succ_mul]

/-- Every layer has at most `maxIter` elements: it is duplicate-free and
drawn from the start plus the grid cells. -/
theorem reach_length_le (W H : Int) (ignored : List Position) (s : Position) (n : Nat) :
    (reachList (neighbors W H ignored) s n).length ≤ maxIter W H := by
  have hsub : reachList (neighbors W H ignored) s n ⊆ s :: gridList W H := by
    intro q hq
    rcases reach_subset_universe W H ignored s n q hq with hq | ⟨⟨h1, h2, h3, h4⟩, _⟩
    · exact hq ▸ List.mem_cons_self s _
    · exact List.mem_cons_of_mem s (mem_gridList W H q h1 h2 h3 h4)
  have hsp := (List.Nodup.subperm (reach_nodup (neighbors W H ignored) s n) hsub).length_le
  rw [List.length_cons, gridList_length] at hsp
  exact hsp

/-- A layer equal to its successor stays fixed forever after. -/
theorem reach_stable (nb : Position → List Position) (s : Position) (n : Nat)
    (h : reachList nb s (n + 1) = reachList nb s n) :
    ∀ m, n ≤ m → reachList nb s m = reachList nb s n := by
  intro m hm
  induction m, hm using Nat.le_induction with
  | base => rfl
  | succ m hm ih =>
    show extendLayer nb (reachList nb s m) = _
    rw [ih]
    exact h

/-- While no layer has stabilized, each layer adds at least one element. -/
theorem reach_growth (nb : Position → List Position) (s : Position) :
    ∀ n, (∀ k, k < n → reachList nb s (k + 1) ≠ reachList nb s k) →
      n + 1 ≤ (reachList nb s n).length := by
  intro n
  induction n with
  | zero => intro _; simp [reachList]
  | succ n ih =>
    intro hall
    have h1 : n + 1 ≤ (reachList nb s n).length :=
      ih (fun k hk => hall k (Nat.lt_succ_of_lt hk))
    have hne := hall n (Nat.lt_succ_self n)
    show n + 1 + 1 ≤ (extendLayer nb (reachList nb s n)).length
    unfold extendLayer
    rw [List.length_append]
    cases hbatch : (((reachList nb s n).flatMap nb).filter
        (fun q => ¬ q ∈ reachList nb s n)).dedup with
    | nil =>
      exfalso
      apply hne
      show extendLayer nb (reachList nb s n) = _
      unfold extendLayer
      rw [hbatch, List.append_nil]
    | cons b t =>
      simp only [List.length_cons]
      omega

/-- Saturation: membership in any layer implies membership in layer
`maxIter`. -/
theorem reach_le_maxIter (W H : Int) (ignored : List Position) (s : Position)
    (n : Nat) (q : Position) (hq : q ∈ reachList (neighbors W H ignored) s n) :
    q ∈ reachList (neighbors W H ignored) s (maxIter W H) := by
  by_cases hex : ∃ k, k < maxIter W H ∧
      reachList (neighbors W H ignored) s (k + 1) = reachList (neighbors W H ignored) s k
  · obtain ⟨k, hk, hstab⟩ := hex
    by_cases hn : n ≤ maxIter W H
    · exact reach_mono _ s hn q hq
    · have h1 : reachList (neighbors W H ignored) s n =
          reachList (neighbors W H ignored) s k :=
        reach_stable _ s k hstab n (by omega)
      exact reach_mono _ s (Nat.le_of_lt hk) q (h1 ▸ hq)
  · push_neg at hex
    have hg := reach_growth (neighbors W H ignored) s (maxIter W H)
      (fun k hk => hex k hk)
    have hb := reach_length_le W H ignored s (maxIter W H)
    omega

/-- A successful layer search returns the least layer index containing the
goal (at or after the starting index). -/
theorem distAux_some (nb : Position → List Position) (s g : Position) :
    ∀ (fuel n d : Nat), distAux nb s g fuel n = some d →
      n ≤ d ∧ g ∈ reachList nb s d ∧
        ∀ m, n ≤ m → m < d → ¬ g ∈ reachList nb s m := by
  intro fuel
  induction fuel with
  | zero =>
    intro n d h
    unfold distAux at h
    split at h
    · cases h
      exact ⟨Nat.le_refl n, by assumption, fun m h1 h2 => absurd h1 (by omega)⟩
    · cases h
  | succ fuel ih =>
    intro n d h
    unfold distAux at h
    split at h
    · cases h
      exact ⟨Nat.le_refl n, by assumption, fun m h1 h2 => absurd h1 (by omega)⟩
    · rename_i hnot
      obtain ⟨h1, h2, h3⟩ := ih (n + 1) d h
      refine ⟨by omega, h2, ?_⟩
      intro m hm1 hm2
      rcases Nat.eq_or_lt_of_le hm1 with hm | hm
      · exact hm ▸ hnot
      · exact h3 m hm hm2

/-- A failed layer search means the goal is in none of the scanned layers. -/
theorem distAux_none (nb : Position → List Position) (s g : Position) :
    ∀ (fuel n : Nat), distAux nb s g fuel n = none →
      ∀ m, n ≤ m → m ≤ n + fuel → ¬ g ∈ reachList nb s m := by
  intro fuel
  induction fuel with
  | zero =>
    intro n h m hm1 hm2
    unfold distAux at h
    split at h
    · cases h
    · have : m = n := by omega
      subst this
      assumption
  | succ fuel ih =>
    intro n h m hm1 hm2
    unfold distAux at h
    split at h
    · cases h
    · rename_i hnot
      rcases Nat.eq_or_lt_of_le hm1 with hm | hm
      · exact hm ▸ hnot
      · exact ih (n + 1) h m hm (by omega)

/-- Searching from a position for itself succeeds immediately with layer 0. -/
theorem distAux_self (nb : Position → List Position) (p : Position) (fuel : Nat) :
    distAux nb p p fuel 0 = some 0 := by
  cases fuel <;> simp [distAux, reachList]

/-- C5: `a_star_pathfind` behaves as the pathfinding crate's contract
promises on the grid graph the source passes it.  For any grid, searching
from a position to itself returns the sentinel `(1, p)`.  For in-bounds
`start != goal` with the goal reachable around the ignored positions, it
returns `some (d, q)` where `d` is the cost (edge count) of a shortest path
— attained by a path of `d + 1` nodes whose second node is `q`, and a lower
bound on every path's edge count — and the returned step `q` is always
inside `[0,width) x [0,height)` and never an ignored position. -/
theorem a_star_returns_shortest_step (W H : Int) (start goal : Position) (ignored : List Position) :
    (a_star_pathfind goal goal ignored W H = some (1, goal)) ∧
    (0 ≤ start.x → start.x < W → 0 ≤ start.y → start.y < H →
     0 ≤ goal.x → goal.x < W → 0 ≤ goal.y → goal.y < H →
     start ≠ goal →
     (∃ l0, isPathB (neighbors W H ignored) start goal l0 = true) →
     ∃ d q, a_star_pathfind start goal ignored W H = some (d, q) ∧
       1 ≤ d ∧
       (∃ l, isPathB (neighbors W H ignored) start goal l = true ∧
         l.length = d + 1 ∧ l.get? 1 = some q) ∧
       (∀ l, isPathB (neighbors W H ignored) start goal l = true → d + 1 ≤ l.length) ∧
       (0 ≤ q.x ∧ q.x < W ∧ 0 ≤ q.y ∧ q.y < H) ∧ ¬ q ∈ ignored) := by
  constructor
  · unfold a_star_pathfind
    dsimp only
    rw [distAux_self]
  · intro hx0 hxW hy0 hyH gx0 gxW gy0 gyH hne hreach
    obtain ⟨l0, hl0⟩ := hreach
    simp only [isPathB, Bool.and_eq_true, decide_eq_true_iff] at hl0
    obtain ⟨⟨hl0h, hl0l⟩, hl0c⟩ := hl0
    -- the goal is reachable, so the bounded search succeeds
    have hmem0 : goal ∈ reachList (neighbors W H ignored) start (l0.length - 1) :=
      reach_complete _ start l0 hl0c hl0h goal hl0l
    have hmemM : goal ∈ reachList (neighbors W H ignored) start (maxIter W H) :=
      reach_le_maxIter W H ignored start _ goal hmem0
    cases hdist : distAux (neighbors W H ignored) start goal (maxIter W H) 0 with
    | none =>
      exact absurd hmemM (distAux_none _ start goal (maxIter W H) 0 hdist (maxIter W H)
        (Nat.zero_le _) (by omega))
    | some d =>
      obtain ⟨_, hmemd, hleast⟩ := distAux_some _ start goal (maxIter W H) 0 d hdist
      have hd1 : 1 ≤ d := by
        rcases Nat.eq_zero_or_pos d with h0 | h
        · exfalso
          rw [h0, mem_reach_zero] at hmemd
          exact hne hmemd.symm
        · exact h
      -- a minimal path has exactly d + 1 nodes
      have hminlen : ∀ l, isPathB (neighbors W H ignored) start goal l = true →
          d + 1 ≤ l.length := by
        intro l hl
        simp only [isPathB, Bool.and_eq_true, decide_eq_true_iff] at hl
        obtain ⟨⟨hlh, hll⟩, hlc⟩ := hl
        have hmem : goal ∈ reachList (neighbors W H ignored) start (l.length - 1) :=
          reach_complete _ start l hlc hlh goal hll
        have hnn : l ≠ [] := by intro hc; rw [hc] at hlh; cases hlh
        have hlen1 : 1 ≤ l.length := by
          cases l with
          | nil => exact absurd rfl hnn
          | cons a t => simp
        by_contra hcon
        exact hleast (l.length - 1) (Nat.zero_le _) (by omega) hmem
      -- a shortest witness path
      obtain ⟨ls, hlsc, hlsh, hlsl, hlslen⟩ :=
        reach_sound (neighbors W H ignored) start d goal hmemd
      have hlspath : isPathB (neighbors W H ignored) start goal ls = true := by
        simp only [isPathB, Bool.and_eq_true, decide_eq_true_iff]
        exact ⟨⟨hlsh, hlsl⟩, hlsc⟩
      have hlslen2 : ls.length = d + 1 :=
        Nat.le_antisymm hlslen (hminlen ls hlspath)
      -- decompose it to exhibit a valid second node
      obtain ⟨q1, rest, hls⟩ : ∃ q1 rest, ls = start :: q1 :: rest := by
        cases ls with
        | nil => cases hlsh
        | cons a t =>
          cases t with
          | nil =>
            exfalso
            simp only [List.length_cons, List.length_nil] at hlslen2
            omega
          | cons b t2 =>
            refine ⟨b, t2, ?_⟩
            simp only [List.head?_cons, Option.some.injEq] at hlsh
            rw [hlsh]
      subst hls
      have hadj1 : q1 ∈ neighbors W H ignored start ∧
          isChain (neighbors W H ignored) (q1 :: rest) = true := by
        simpa [isChain, Bool.and_eq_true, decide_eq_true_iff] using hlsc
      have hmem1 : goal ∈ reachList (neighbors W H ignored) q1 (d - 1) := by
        have hlen3 : (q1 :: rest).length - 1 = d - 1 := by
          simp only [List.length_cons] at hlslen2 ⊢
          omega
        have := reach_complete _ q1 (q1 :: rest) hadj1.2 rfl goal
          (by simpa using hlsl)
        rw [hlen3] at this
        exact this
      -- the find? over the start's neighbors succeeds
      cases hfind : (neighbors W H ignored start).find?
          (fun q => decide (goal ∈ reachList (neighbors W H ignored) q (d - 1))) with
      | none =>
        exfalso
        have := List.find?_eq_none.mp hfind q1 hadj1.1
        simp only [decide_eq_true_iff] at this
        exact this hmem1
      | some q0 =>
        have hq0adj : q0 ∈ neighbors W H ignored start := List.mem_of_find?_eq_some hfind
        have hq0mem : goal ∈ reachList (neighbors W H ignored) q0 (d - 1) := by
          have := List.find?_some hfind
          simpa using this
        obtain ⟨⟨b1, b2, b3, b4⟩, hnig⟩ := neighbors_mem W H ignored start q0 hq0adj
        -- build the shortest path through q0
        obtain ⟨l1, hl1c, hl1h, hl1l, hl1len⟩ :=
          reach_sound (neighbors W H ignored) q0 (d - 1) goal hq0mem
        have hl1nn : l1 ≠ [] := by
          intro hc; rw [hc] at hl1h; cases hl1h
        have hpath2 : isPathB (neighbors W H ignored) start goal (start :: l1) = true := by
          simp only [isPathB, Bool.and_eq_true, decide_eq_true_iff]
          refine ⟨⟨rfl, ?_⟩, isChain_cons _ start q0 l1 hl1h hq0adj hl1c⟩
          cases l1 with
          | nil => exact absurd rfl hl1nn
          | cons a t => simpa using hl1l
        have hlen4 : (start :: l1).length = d + 1 := by
          have hge := hminlen (start :: l1) hpath2
          simp only [List.length_cons] at hge ⊢
          omega
        have hget : (start :: l1).get? 1 = some q0 := by
          cases l1 with
          | nil => exact absurd rfl hl1nn
          | cons a t =>
            simp only [List.head?_cons, Option.some.injEq] at hl1h
            rw [hl1h]
            rfl
        refine ⟨d, q0, ?_, hd1, ⟨start :: l1, hpath2, hlen4, hget⟩,
          hminlen, ⟨b1, b2, b3, b4⟩, hnig⟩
        unfold a_star_pathfind
        dsimp only
        rw [hdist]
        have hd : d = (d - 1) + 1 := by omega
        rw [hd]
        dsimp only
        rw [hfind]

/-- Witness for `a_star_returns_shortest_step`: in a 2×2 grid from (0,0) to
(1,1) with nothing ignored, the call returns the shortest cost 2 and a valid
second node. -/
theorem a_star_returns_shortest_step_witness :
    ∃ d q, a_star_pathfind ⟨0, 0⟩ ⟨1, 1⟩ [] 2 2 = some (d, q) ∧
      1 ≤ d ∧
      (∃ l, isPathB (neighbors 2 2 []) ⟨0, 0⟩ ⟨1, 1⟩ l = true ∧
        l.length = d + 1 ∧ l.get? 1 = some q) ∧
      (∀ l, isPathB (neighbors 2 2 []) ⟨0, 0⟩ ⟨1, 1⟩ l = true → d + 1 ≤ l.length) ∧
      (0 ≤ q.x ∧ q.x < 2 ∧ 0 ≤ q.y ∧ q.y < 2) ∧ ¬ q ∈ ([] : List Position) :=
  (a_star_returns_shortest_step 2 2 ⟨0, 0⟩ ⟨1, 1⟩ []).2 (by decide) (by decide)
    (by decide) (by decide) (by decide) (by decide) (by decide) (by decide)
    (by decide) ⟨[⟨0, 0⟩, ⟨1, 0⟩, ⟨1, 1⟩], by decide⟩
